import Mathlib

/-!
Verification of the incremental market-data cache implemented in
src/data_manager/data_downloader.py.

The embedding follows the Python source line by line:

* a pandas DataFrame with multi-index (timestamp, symbol) is a `List Row`;
* the SQLite table market_data is a `List DBRow`; INSERT OR REPLACE is
  `upsertRow`, the windowed SELECT with ORDER BY timestamp is `getCachedData`;
* datetimes are epoch seconds as `Int` (the code stores
  int(start_date.timestamp()) and compares timestamps only);
* OHLCV payloads are opaque numeric values, modeled as `Int`: the caching
  core never computes with them, it only copies and compares rows;
* DataFrame.sort_index is a stable sort on the lexicographic
  (timestamp, symbol) key; it is modeled with `List.insertionSort`, which
  is stable and structurally recursive, hence executable by `decide`;
* a raised Python exception is `Except.error`; side effects on the SQLite
  store and the number of backend download calls are threaded explicitly,
  so `getData` returns (result-or-error, final store, download count).
-/

namespace TwoCC

/-- One OHLCV row of a DataFrame whose multi-index is (timestamp, symbol). -/
structure Row where
  symbol : String
  ts : Int
  o : Int
  h : Int
  l : Int
  c : Int
  v : Int
deriving DecidableEq

/-- One row of the market_data SQLite table (schema of _init_database). -/
structure DBRow where
  symbol : String
  ts : Int
  o : Int
  h : Int
  l : Int
  c : Int
  v : Int
  source : String
  interval : String
deriving DecidableEq

/-- The multi-index key (timestamp, symbol) of a DataFrame row. -/
def rkey (r : Row) : Int × String := (r.ts, r.symbol)

/-- Model of df[~df.index.duplicated(keep=last)]: keep, in order, only the
last occurrence of each (timestamp, symbol) key. -/
def keepLast : List Row → List Row
  | [] => []
  | r :: rest =>
    if rest.any (fun x => decide (rkey x = rkey r)) then keepLast rest
    else r :: keepLast rest

/-- Kernel-computable lexicographic comparison of character lists, used as
the symbol tie-break of the multi-index sort. -/
def strLTb : List Char → List Char → Bool
  | [], [] => false
  | [], _ :: _ => true
  | _ :: _, [] => false
  | a :: as, b :: bs => if a < b then true else if b < a then false else strLTb as bs

theorem strLTb_cons_iff {a b : Char} {as bs : List Char} :
    strLTb (a :: as) (b :: bs) = true ↔ a < b ∨ (a = b ∧ strLTb as bs = true) := by
  rcases lt_trichotomy a b with h | h | h
  · simp [strLTb, h]
  · simp [strLTb, h, lt_irrefl]
  · simp only [strLTb, if_neg (lt_asymm h), if_pos h]
    constructor
    · intro hf; exact absurd hf (by simp)
    · rintro (hc | ⟨hc, _⟩)
      · exact absurd hc (lt_asymm h)
      · exact absurd hc (ne_of_gt h)

theorem strLTb_trichotomy : ∀ (x y : List Char),
    strLTb x y = true ∨ x = y ∨ strLTb y x = true
  | [], [] => Or.inr (Or.inl rfl)
  | [], _ :: _ => Or.inl rfl
  | _ :: _, [] => Or.inr (Or.inr rfl)
  | a :: as, b :: bs => by
    rcases lt_trichotomy a b with h | h | h
    · exact Or.inl (strLTb_cons_iff.mpr (Or.inl h))
    · subst h
      rcases strLTb_trichotomy as bs with h2 | h2 | h2
      · exact Or.inl (strLTb_cons_iff.mpr (Or.inr ⟨rfl, h2⟩))
      · exact Or.inr (Or.inl (by rw [h2]))
      · exact Or.inr (Or.inr (strLTb_cons_iff.mpr (Or.inr ⟨rfl, h2⟩)))
    · exact Or.inr (Or.inr (strLTb_cons_iff.mpr (Or.inl h)))

theorem strLTb_trans : ∀ {x y z : List Char},
    strLTb x y = true → strLTb y z = true → strLTb x z = true
  | [], [], _, hxy, _ => by simp [strLTb] at hxy
  | [], _ :: _, [], _, hyz => by simp [strLTb] at hyz
  | [], _ :: _, _ :: _, _, _ => rfl
  | _ :: _, [], _, hxy, _ => by simp [strLTb] at hxy
  | _ :: _, _ :: _, [], _, hyz => by simp [strLTb] at hyz
  | a :: as, b :: bs, c :: cs, hxy, hyz => by
    rcases strLTb_cons_iff.mp hxy with h1 | ⟨h1, h1r⟩ <;>
      rcases strLTb_cons_iff.mp hyz with h2 | ⟨h2, h2r⟩
    · exact strLTb_cons_iff.mpr (Or.inl (h1.trans h2))
    · exact strLTb_cons_iff.mpr (Or.inl (h2 ▸ h1))
    · exact strLTb_cons_iff.mpr (Or.inl (h1 ▸ h2))
    · exact strLTb_cons_iff.mpr (Or.inr ⟨h1.trans h2, strLTb_trans h1r h2r⟩)

/-- Lexicographic order on the (timestamp, symbol) multi-index, the order
used by DataFrame.sort_index. -/
def rowLE (a b : Row) : Prop :=
  a.ts < b.ts ∨ (a.ts = b.ts ∧ (strLTb a.symbol.data b.symbol.data = true ∨ a.symbol = b.symbol))

instance : DecidableRel rowLE := fun a b =>
  inferInstanceAs (Decidable (a.ts < b.ts ∨ (a.ts = b.ts ∧
    (strLTb a.symbol.data b.symbol.data = true ∨ a.symbol = b.symbol))))

theorem string_eq_of_data_eq {a b : String} (h : a.data = b.data) : a = b := by
  cases a; cases b; exact congrArg String.mk (by simpa using h)

instance : IsTotal Row rowLE := by
  constructor
  intro a b
  rcases lt_trichotomy a.ts b.ts with hlt | heq | hgt
  · exact Or.inl (Or.inl hlt)
  · rcases strLTb_trichotomy a.symbol.data b.symbol.data with hs | hs | hs
    · exact Or.inl (Or.inr ⟨heq, Or.inl hs⟩)
    · exact Or.inl (Or.inr ⟨heq, Or.inr (string_eq_of_data_eq hs)⟩)
    · exact Or.inr (Or.inr ⟨heq.symm, Or.inl hs⟩)
  · exact Or.inr (Or.inl hgt)

instance : IsTrans Row rowLE := by
  constructor
  intro a b c hab hbc
  rcases hab with h1 | ⟨h1, hs1⟩ <;> rcases hbc with h2 | ⟨h2, hs2⟩
  · exact Or.inl (h1.trans h2)
  · exact Or.inl (h2 ▸ h1)
  · exact Or.inl (lt_of_le_of_lt (le_of_eq h1) h2)
  · refine Or.inr ⟨h1.trans h2, ?_⟩
    rcases hs1 with hs1 | hs1 <;> rcases hs2 with hs2 | hs2
    · exact Or.inl (strLTb_trans hs1 hs2)
    · exact Or.inl (hs2 ▸ hs1)
    · exact Or.inl (hs1 ▸ hs2)
    · exact Or.inr (hs1.trans hs2)

/-- Order by timestamp alone, the order of the SQL ORDER BY timestamp clause. -/
def tsLE (a b : Row) : Prop := a.ts ≤ b.ts

instance : DecidableRel tsLE := fun a b => inferInstanceAs (Decidable (a.ts ≤ b.ts))

instance : IsTotal Row tsLE := ⟨fun a b => Int.le_total a.ts b.ts⟩

instance : IsTrans Row tsLE := ⟨fun _ _ _ h1 h2 => Int.le_trans h1 h2⟩

/-- Model of result.sort_index() on the (timestamp, symbol) multi-index. -/
def sortIndex (rows : List Row) : List Row := List.insertionSort rowLE rows

/-- Lines 150 to 152 of data_downloader.py: pd.concat(all_data), sort_index,
then drop duplicated index keys keeping the last occurrence. -/
def mergeAll (allData : List (List Row)) : List Row := keepLast (sortIndex allData.flatten)

/-- Conversion of a table row back to a DataFrame row, as done by the
SELECT plus set_index([timestamp, symbol]) in _get_cached_data. -/
def toRow (d : DBRow) : Row := ⟨d.symbol, d.ts, d.o, d.h, d.l, d.c, d.v⟩

/-- Collision on the PRIMARY KEY (symbol, timestamp, interval, source). -/
def sameKeyD (a b : DBRow) : Prop :=
  a.symbol = b.symbol ∧ a.ts = b.ts ∧ a.interval = b.interval ∧ a.source = b.source

instance (a b : DBRow) : Decidable (sameKeyD a b) :=
  inferInstanceAs (Decidable (_ ∧ _ ∧ _ ∧ _))

/-- INSERT OR REPLACE INTO market_data: delete any row with the same primary
key, then insert the new row. -/
def upsertRow (store : List DBRow) (d : DBRow) : List DBRow :=
  store.filter (fun x => !(decide (sameKeyD x d))) ++ [d]

/-- DataDownloader._save_to_cache: upsert every row of the frame in order. -/
def saveToCache (data : List Row) (source interval : String) (store : List DBRow) :
    List DBRow :=
  data.foldl (fun st r => upsertRow st ⟨r.symbol, r.ts, r.o, r.h, r.l, r.c, r.v, source, interval⟩)
    store

/-- DataDownloader._get_cached_data: SELECT rows matching symbol, window,
interval and source, ORDER BY timestamp. The Python function returns None for
an empty frame; both cases are the empty list here, matching how the caller
only tests emptiness. -/
def getCachedData (store : List DBRow) (symbol : String) (startD endD : Int)
    (interval source : String) : List Row :=
  List.insertionSort tsLE
    ((store.filter (fun d => decide (d.symbol = symbol) && decide (startD ≤ d.ts) &&
        decide (d.ts ≤ endD) && decide (d.interval = interval) &&
        decide (d.source = source))).map toRow)

/-- Minimum timestamp of a nonempty row collection, given as head and tail. -/
def tsMin (r : Row) (rs : List Row) : Int := rs.foldl (fun a x => min a x.ts) r.ts

/-- Maximum timestamp of a nonempty row collection, given as head and tail. -/
def tsMax (r : Row) (rs : List Row) : Int := rs.foldl (fun a x => max a x.ts) r.ts

/-- DataDownloader._identify_missing_ranges: the whole window if the cache is
empty, else a leading gap when start is before the earliest cached timestamp
followed by a trailing gap when end is after the latest cached timestamp. -/
def identifyMissingRanges (cached : List Row) (startD endD : Int) (interval : String) :
    List (Int × Int) :=
  match cached with
  | [] => [(startD, endD)]
  | r :: rest =>
    (if startD < tsMin r rest then [(startD, tsMin r rest)] else []) ++
      (if tsMax r rest < endD then [(tsMax r rest, endD)] else [])

/-- A registered source backend: the download method of a BaseDataDownloader.
An Except.error models an exception escaping the method. -/
structure Downloader where
  download : List String → Int → Int → String → Except String (List Row)

/-- Gap-filling loop of get_data (lines 118 to 126): download each missing
range in order; a nonempty response is cached and collected. An exception
from download aborts the loop and propagates. The Nat counts download calls. -/
def processRanges (dl : Downloader) (symbol interval source : String) :
    List (Int × Int) → List DBRow → Except String (List (List Row)) × List DBRow × Nat
  | [], store => (Except.ok [], store, 0)
  | (gs, ge) :: rest, store =>
    match dl.download [symbol] gs ge interval with
    | Except.error e => (Except.error e, store, 1)
    | Except.ok newData =>
      if newData.isEmpty then
        match processRanges dl symbol interval source rest store with
        | (res, st, n) => (res, st, n + 1)
      else
        match processRanges dl symbol interval source rest
            (saveToCache newData source interval store) with
        | (Except.error e, st, n) => (Except.error e, st, n + 1)
        | (Except.ok dfs, st, n) => (Except.ok (newData :: dfs), st, n + 1)

/-- Body of the per-symbol loop of get_data (lines 100 to 143): consult the
cache, fill gaps when cached data exists, otherwise download the full range.
Returns the frames appended to all_data for this symbol. -/
def processSymbol (dl : Downloader) (useCache : Bool) (symbol : String)
    (startD endD : Int) (interval source : String) (store : List DBRow) :
    Except String (List (List Row)) × List DBRow × Nat :=
  let cached := getCachedData store symbol startD endD interval source
  if useCache && !cached.isEmpty then
    match processRanges dl symbol interval source
        (identifyMissingRanges cached startD endD interval) store with
    | (Except.error e, st, n) => (Except.error e, st, n)
    | (Except.ok dfs, st, n) => (Except.ok (dfs ++ [cached]), st, n)
  else
    match dl.download [symbol] startD endD interval with
    | Except.error e => (Except.error e, store, 1)
    | Except.ok newData =>
      if newData.isEmpty then (Except.ok [], store, 1)
      else (Except.ok [newData], saveToCache newData source interval store, 1)

/-- The loop over symbols of get_data, collecting all_data in order. -/
def processSymbols (dl : Downloader) (useCache : Bool) :
    List String → Int → Int → String → String → List DBRow →
    Except String (List (List Row)) × List DBRow × Nat
  | [], _, _, _, _, store => (Except.ok [], store, 0)
  | symbol :: rest, startD, endD, interval, source, store =>
    match processSymbol dl useCache symbol startD endD interval source store with
    | (Except.error e, st, n) => (Except.error e, st, n)
    | (Except.ok dfs, st, n) =>
      match processSymbols dl useCache rest startD endD interval source st with
      | (Except.error e, st2, n2) => (Except.error e, st2, n + n2)
      | (Except.ok dfs2, st2, n2) => (Except.ok (dfs ++ dfs2), st2, n + n2)

/-- DataDownloader.get_data. The triple holds the returned frame or the
propagated exception, the final state of the SQLite store, and the number of
backend download calls that were issued. -/
def getData (downloaders : List (String × Downloader)) (useCache : Bool)
    (store : List DBRow) (symbols : List String) (startD endD : Int)
    (interval source : String) :
    Except String (List Row) × List DBRow × Nat :=
  match downloaders.lookup source with
  | none => (Except.error ((("No downloader registered for source: ")) ++ source), store, 0)
  | some dl =>
    match processSymbols dl useCache symbols startD endD interval source store with
    | (Except.error e, st, n) => (Except.error e, st, n)
    | (Except.ok allData, st, n) =>
      if allData.isEmpty then (Except.ok [], st, n)
      else (Except.ok (mergeAll allData), st, n)

/-- BinanceDataDownloader.MAX_CANDLES_PER_REQUEST. -/
def MAX_CANDLES_PER_REQUEST : Int := 100

/-- BinanceDataDownloader._get_interval_delta, in seconds; unknown labels
fall back to one hour. -/
def getIntervalDelta (interval : String) : Int :=
  if interval == "1m" then 60
  else if interval == "3m" then 180
  else if interval == "5m" then 300
  else if interval == "15m" then 900
  else if interval == "30m" then 1800
  else if interval == "1h" then 3600
  else if interval == "2h" then 7200
  else if interval == "4h" then 14400
  else if interval == "6h" then 21600
  else if interval == "8h" then 28800
  else if interval == "12h" then 43200
  else if interval == "1d" then 86400
  else if interval == "3d" then 259200
  else if interval == "1w" then 604800
  else if interval == "1M" then 2592000
  else 3600

/-- Loop of _create_batches: while current_start is before end_date, emit
(current_start, min (current_start + batch_size) end_date) and continue from
the batch end. The guard on batchSize makes the recursion well founded; the
source always passes a positive batch size (getIntervalDelta_pos below). -/
def createBatchesAux (batchSize endD : Int) (cur : Int) : List (Int × Int) :=
  if h : cur < endD ∧ 0 < batchSize then
    (cur, min (cur + batchSize) endD) :: createBatchesAux batchSize endD (min (cur + batchSize) endD)
  else []
termination_by (endD - cur).toNat
decreasing_by
  rcases h with ⟨h1, h2⟩
  rcases le_total (cur + batchSize) endD with hle | hle
  · rw [min_eq_left hle]; omega
  · rw [min_eq_right hle]; omega

/-- BinanceDataDownloader._create_batches: batch size is the interval length
times (MAX_CANDLES_PER_REQUEST - 1). -/
def createBatches (startD endD : Int) (interval : String) : List (Int × Int) :=
  createBatchesAux (getIntervalDelta interval * (MAX_CANDLES_PER_REQUEST - 1)) endD startD

/-- One raw candle as returned by client.get_historical_klines, reduced to
the fields the downloader keeps. -/
structure Kline where
  ts : Int
  o : Int
  h : Int
  l : Int
  c : Int
  v : Int
deriving DecidableEq

/-- The Binance API client; getKlines takes symbol, interval and a batch
window, and none models a raised exception. -/
structure KlineClient where
  getKlines : String → String → Int → Int → Option (List Kline)

/-- Construction of the per-batch DataFrame: klines tagged with the symbol. -/
def klineToRow (symbol : String) (k : Kline) : Row :=
  ⟨symbol, k.ts, k.o, k.h, k.l, k.c, k.v⟩

/-- The per-batch loop of BinanceDataDownloader.download (lines 355 to 387):
an exception from the API call is caught and the batch skipped; an empty
kline list is skipped; otherwise the frame is collected. -/
def binanceDownloadSymbol (client : KlineClient) (interval symbol : String) :
    List (Int × Int) → List (List Row)
  | [] => []
  | (bs, be) :: rest =>
    match client.getKlines symbol interval bs be with
    | none => binanceDownloadSymbol client interval symbol rest
    | some klines =>
      if klines.isEmpty then binanceDownloadSymbol client interval symbol rest
      else (klines.map (klineToRow symbol)) :: binanceDownloadSymbol client interval symbol rest

/-- BinanceDataDownloader.download: per symbol, concatenate the collected
batches and drop duplicated index keys keeping the last occurrence, then
concatenate across symbols. It returns a frame in every case and lets no
exception escape. -/
def binanceDownload (client : KlineClient) (symbols : List String)
    (startD endD : Int) (interval : String) : List Row :=
  (symbols.map (fun symbol =>
      keepLast ((binanceDownloadSymbol client interval symbol
        (createBatches startD endD interval)).flatten))).flatten

/-- The Binance backend as registered with the orchestrator. -/
def binanceDL (client : KlineClient) : Downloader :=
  ⟨fun symbols startD endD interval =>
    Except.ok (binanceDownload client symbols startD endD interval)⟩

/-- Discriminator for the result component of getData. -/
def isOkE {ε α : Type} : Except ε α → Bool
  | Except.ok _ => true
  | Except.error _ => false

/-- Structural uniqueness of the SQLite PRIMARY KEY: no two table rows share
the key (symbol, timestamp, interval, source). Every store reachable by
upserts from the empty table satisfies this. -/
def StoreWF (store : List DBRow) : Prop :=
  store.Pairwise (fun a b => ¬ sameKeyD a b)

theorem keepLast_sublist : ∀ l : List Row, List.Sublist (keepLast l) l
  | [] => List.Sublist.refl []
  | r :: rest => by
    unfold keepLast
    split
    · exact (keepLast_sublist rest).cons r
    · exact (keepLast_sublist rest).cons₂ r

theorem keepLast_pairwise_key : ∀ l : List Row,
    (keepLast l).Pairwise (fun a b => rkey a ≠ rkey b)
  | [] => List.Pairwise.nil
  | r :: rest => by
    unfold keepLast
    split
    · exact keepLast_pairwise_key rest
    · rename_i hany
      refine List.Pairwise.cons ?_ (keepLast_pairwise_key rest)
      intro b hb hk
      exact hany (List.any_eq_true.mpr
        ⟨b, (keepLast_sublist rest).subset hb, decide_eq_true hk.symm⟩)

theorem keepLast_eq_self : ∀ {l : List Row},
    l.Pairwise (fun a b => rkey a ≠ rkey b) → keepLast l = l
  | [], _ => rfl
  | r :: rest, h => by
    unfold keepLast
    rw [if_neg, keepLast_eq_self (List.pairwise_cons.mp h).2]
    intro hany
    obtain ⟨y, hy, hyk⟩ := List.any_eq_true.mp hany
    exact ((List.pairwise_cons.mp h).1 y hy) (of_decide_eq_true hyk).symm

theorem exists_key_keepLast {k : Int × String} : ∀ {l : List Row},
    (∃ r ∈ keepLast l, rkey r = k) ↔ ∃ r ∈ l, rkey r = k := by
  intro l
  induction l with
  | nil => simp [keepLast]
  | cons r rest ih =>
    unfold keepLast
    split
    · rename_i hany
      rw [ih]
      constructor
      · rintro ⟨x, hx, hk⟩
        exact ⟨x, List.mem_cons_of_mem r hx, hk⟩
      · rintro ⟨x, hx, hk⟩
        rcases List.mem_cons.mp hx with hx | hx
        · obtain ⟨y, hy, hyk⟩ := List.any_eq_true.mp hany
          exact ⟨y, hy, (of_decide_eq_true hyk).trans (hx ▸ hk)⟩
        · exact ⟨x, hx, hk⟩
    · constructor
      · rintro ⟨x, hx, hk⟩
        rcases List.mem_cons.mp hx with hx | hx
        · exact ⟨r, List.mem_cons_self r rest, hx ▸ hk⟩
        · obtain ⟨y, hy, hyk⟩ := ih.mp ⟨x, hx, hk⟩
          exact ⟨y, List.mem_cons_of_mem r hy, hyk⟩
      · rintro ⟨x, hx, hk⟩
        rcases List.mem_cons.mp hx with hx | hx
        · exact ⟨r, List.mem_cons_self r _, hx ▸ hk⟩
        · obtain ⟨y, hy, hyk⟩ := ih.mpr ⟨x, hx, hk⟩
          exact ⟨y, List.mem_cons_of_mem r hy, hyk⟩

theorem filter_key_keepLast (k : Int × String) : ∀ l : List Row,
    (keepLast l).filter (fun r => decide (rkey r = k)) =
      ((l.filter (fun r => decide (rkey r = k))).getLast?).toList
  | [] => rfl
  | r :: rest => by
    unfold keepLast
    split
    · rename_i hany
      rw [filter_key_keepLast k rest]
      by_cases hk : rkey r = k
      · obtain ⟨y, hy, hyk⟩ := List.any_eq_true.mp hany
        have hykk : rkey y = k := (of_decide_eq_true hyk).trans hk
        have hymem : y ∈ rest.filter (fun r => decide (rkey r = k)) :=
          List.mem_filter.mpr ⟨hy, decide_eq_true hykk⟩
        obtain ⟨z, zs, hz⟩ := List.exists_cons_of_ne_nil (List.ne_nil_of_mem hymem)
        have hcons : (r :: rest).filter (fun r => decide (rkey r = k)) =
            r :: rest.filter (fun r => decide (rkey r = k)) := by
          simp [List.filter_cons, hk]
        rw [hcons, hz, List.getLast?_cons_cons]
      · have hcons : (r :: rest).filter (fun r => decide (rkey r = k)) =
            rest.filter (fun r => decide (rkey r = k)) := by
          simp [List.filter_cons, hk]
        rw [hcons]
    · rename_i hany
      by_cases hk : rkey r = k
      · have hrest : rest.filter (fun r => decide (rkey r = k)) = [] := by
          rw [List.filter_eq_nil_iff]
          intro y hy hyk
          exact hany (List.any_eq_true.mpr
            ⟨y, hy, decide_eq_true ((of_decide_eq_true hyk).trans hk.symm)⟩)
        have hrest2 : (keepLast rest).filter (fun r => decide (rkey r = k)) = [] := by
          rw [List.filter_eq_nil_iff] at hrest ⊢
          intro y hy hyk
          exact hrest y ((keepLast_sublist rest).subset hy) hyk
        have hcons1 : (r :: rest).filter (fun r => decide (rkey r = k)) =
            r :: rest.filter (fun r => decide (rkey r = k)) := by
          simp [List.filter_cons, hk]
        have hcons2 : (r :: keepLast rest).filter (fun r => decide (rkey r = k)) =
            r :: (keepLast rest).filter (fun r => decide (rkey r = k)) := by
          simp [List.filter_cons, hk]
        rw [hcons1, hcons2, hrest, hrest2]
        rfl
      · have hcons1 : (r :: rest).filter (fun r => decide (rkey r = k)) =
            rest.filter (fun r => decide (rkey r = k)) := by
          simp [List.filter_cons, hk]
        have hcons2 : (r :: keepLast rest).filter (fun r => decide (rkey r = k)) =
            (keepLast rest).filter (fun r => decide (rkey r = k)) := by
          simp [List.filter_cons, hk]
        rw [hcons1, hcons2, filter_key_keepLast k rest]

/-- Stability of the multi-index sort on one key class: filtering rows with
a fixed key commutes with sorting, because rows with equal keys compare
equal and the sort is stable. -/
theorem filter_insertionSort_key (p : Row → Bool)
    (hp : ∀ a b : Row, p a = true → p b = true → rowLE a b) (l : List Row) :
    (List.insertionSort rowLE l).filter p = l.filter p := by
  have hpw : (l.filter p).Pairwise rowLE := by
    have : ∀ a ∈ l.filter p, ∀ b ∈ l.filter p, rowLE a b := fun a ha b hb =>
      hp a b (List.of_mem_filter ha) (List.of_mem_filter hb)
    exact List.pairwise_of_forall_mem_list this
  have hsub : List.Sublist (l.filter p) (List.insertionSort rowLE l) :=
    List.sublist_insertionSort hpw (List.filter_sublist l)
  have hsub2 : List.Sublist (l.filter p) ((List.insertionSort rowLE l).filter p) := by
    have h2 := hsub.filter p
    rwa [List.filter_eq_self.mpr (fun a ha => List.of_mem_filter ha)] at h2
  have hlen : ((List.insertionSort rowLE l).filter p).length = (l.filter p).length :=
    ((List.perm_insertionSort rowLE l).filter p).length_eq
  exact (hsub2.eq_of_length hlen.symm).symm

theorem getCachedData_mem_iff {store : List DBRow} {symbol : String} {startD endD : Int}
    {interval source : String} {row : Row} :
    row ∈ getCachedData store symbol startD endD interval source ↔
      ∃ d ∈ store, d.symbol = symbol ∧ startD ≤ d.ts ∧ d.ts ≤ endD ∧
        d.interval = interval ∧ d.source = source ∧ toRow d = row := by
  unfold getCachedData
  rw [List.mem_insertionSort]
  simp only [List.mem_map, List.mem_filter, Bool.and_eq_true, decide_eq_true_eq]
  constructor
  · rintro ⟨d, ⟨hd, ⟨⟨⟨⟨h1, h2⟩, h3⟩, h4⟩, h5⟩⟩, hrow⟩
    exact ⟨d, hd, h1, h2, h3, h4, h5, hrow⟩
  · rintro ⟨d, hd, h1, h2, h3, h4, h5, hrow⟩
    exact ⟨d, ⟨hd, ⟨⟨⟨⟨h1, h2⟩, h3⟩, h4⟩, h5⟩⟩, hrow⟩

theorem getCachedData_sorted (store : List DBRow) (symbol : String) (startD endD : Int)
    (interval source : String) :
    (getCachedData store symbol startD endD interval source).Pairwise
      (fun a b => a.ts ≤ b.ts) :=
  List.sorted_insertionSort tsLE _

theorem getCachedData_ts_nodup {store : List DBRow} (hwf : StoreWF store)
    (symbol : String) (startD endD : Int) (interval source : String) :
    (getCachedData store symbol startD endD interval source).Pairwise
      (fun a b => a.ts ≠ b.ts) := by
  unfold getCachedData
  have hperm := List.perm_insertionSort tsLE
    ((store.filter (fun d => decide (d.symbol = symbol) && decide (startD ≤ d.ts) &&
        decide (d.ts ≤ endD) && decide (d.interval = interval) &&
        decide (d.source = source))).map toRow)
  rw [List.Perm.pairwise_iff (fun h he => h he.symm) hperm]
  rw [List.pairwise_map]
  refine List.Pairwise.imp_of_mem ?_ (List.Pairwise.sublist (List.filter_sublist store) hwf)
  intro a b ha hb hne
  have ha' := List.of_mem_filter ha
  have hb' := List.of_mem_filter hb
  simp only [Bool.and_eq_true, decide_eq_true_eq] at ha' hb'
  intro hts
  exact hne ⟨ha'.1.1.1.1.trans hb'.1.1.1.1.symm, hts,
    ha'.1.2.trans hb'.1.2.symm, ha'.2.trans hb'.2.symm⟩

/-- Gap detection on a nonempty cache whose extremes cover the window. -/
theorem identifyMissingRanges_covered {r : Row} {rest : List Row} {s e : Int}
    {interval : String} (hmin : tsMin r rest ≤ s) (hmax : e ≤ tsMax r rest) :
    identifyMissingRanges (r :: rest) s e interval = [] := by
  show (if s < tsMin r rest then [(s, tsMin r rest)] else []) ++
      (if tsMax r rest < e then [(tsMax r rest, e)] else []) = []
  rw [if_neg (not_lt.mpr hmin), if_neg (not_lt.mpr hmax)]
  rfl

theorem getIntervalDelta_pos (i : String) : 0 < getIntervalDelta i := by
  by_cases h1 : i = "1m"
  · subst h1; decide
  by_cases h2 : i = "3m"
  · subst h2; decide
  by_cases h3 : i = "5m"
  · subst h3; decide
  by_cases h4 : i = "15m"
  · subst h4; decide
  by_cases h5 : i = "30m"
  · subst h5; decide
  by_cases h6 : i = "1h"
  · subst h6; decide
  by_cases h7 : i = "2h"
  · subst h7; decide
  by_cases h8 : i = "4h"
  · subst h8; decide
  by_cases h9 : i = "6h"
  · subst h9; decide
  by_cases h10 : i = "8h"
  · subst h10; decide
  by_cases h11 : i = "12h"
  · subst h11; decide
  by_cases h12 : i = "1d"
  · subst h12; decide
  by_cases h13 : i = "3d"
  · subst h13; decide
  by_cases h14 : i = "1w"
  · subst h14; decide
  by_cases h15 : i = "1M"
  · subst h15; decide
  unfold getIntervalDelta
  rw [if_neg (by simpa using h1), if_neg (by simpa using h2), if_neg (by simpa using h3),
    if_neg (by simpa using h4), if_neg (by simpa using h5), if_neg (by simpa using h6),
    if_neg (by simpa using h7), if_neg (by simpa using h8), if_neg (by simpa using h9),
    if_neg (by simpa using h10), if_neg (by simpa using h11), if_neg (by simpa using h12),
    if_neg (by simpa using h13), if_neg (by simpa using h14), if_neg (by simpa using h15)]
  norm_num

theorem createBatches_1h_250h :
    createBatches 0 900000 "1h" = [(0, 356400), (356400, 712800), (712800, 900000)] := by
  have hd : getIntervalDelta "1h" * (MAX_CANDLES_PER_REQUEST - 1) = 356400 := rfl
  unfold createBatches
  rw [hd]
  rw [createBatchesAux]
  norm_num [min_def]
  rw [createBatchesAux]
  norm_num [min_def]
  rw [createBatchesAux]
  norm_num [min_def]
  rw [createBatchesAux]
  norm_num

/-- Full functional specification of the batching loop: for a positive batch
size and a nonempty window, the emitted sub-windows start at the window
start, end at the window end, chain contiguously, and each spans at most
one batch size. -/
theorem createBatchesAux_spec (bs e : Int) (hbs : 0 < bs) :
    ∀ cur, cur < e →
      (createBatchesAux bs e cur).head?.map Prod.fst = some cur ∧
      (createBatchesAux bs e cur).getLast?.map Prod.snd = some e ∧
      List.Chain' (fun a b => a.2 = b.1) (createBatchesAux bs e cur) ∧
      ∀ b ∈ createBatchesAux bs e cur, b.1 < b.2 ∧ b.2 - b.1 ≤ bs := by
  intro cur hcur
  rw [createBatchesAux, dif_pos ⟨hcur, hbs⟩]
  by_cases hlt : cur + bs < e
  · have hmin : min (cur + bs) e = cur + bs := min_eq_left (le_of_lt hlt)
    rw [hmin]
    obtain ⟨ih1, ih2, ih3, ih4⟩ := createBatchesAux_spec bs e hbs (cur + bs) hlt
    have hne : createBatchesAux bs e (cur + bs) ≠ [] := by
      intro hnil
      rw [hnil] at ih1
      exact Option.noConfusion ih1
    obtain ⟨y, ys, hy⟩ := List.exists_cons_of_ne_nil hne
    refine ⟨by simp, ?_, ?_, ?_⟩
    · rw [hy, List.getLast?_cons_cons, ← hy]
      exact ih2
    · rw [List.chain'_cons']
      refine ⟨?_, ih3⟩
      intro b hb
      rw [hy] at ih1 hb
      simp only [List.head?_cons, Option.mem_def, Option.some.injEq] at hb
      subst hb
      simp only [List.head?_cons] at ih1
      simp at ih1
      exact ih1.symm
    · intro b hb
      rcases List.mem_cons.mp hb with hb | hb
      · subst hb
        constructor
        · omega
        · omega
      · exact ih4 b hb
  · have hmin : min (cur + bs) e = e := min_eq_right (le_of_not_lt hlt)
    rw [hmin]
    have hnil : createBatchesAux bs e e = [] := by
      rw [createBatchesAux, dif_neg]
      intro hc
      exact absurd hc.1 (lt_irrefl e)
    rw [hnil]
    refine ⟨by simp, by simp, List.chain'_singleton _, ?_⟩
    intro b hb
    rcases List.mem_singleton.mp hb with rfl
    constructor
    · exact hcur
    · omega
termination_by cur _ => (e - cur).toNat
decreasing_by omega

/-- Merging a single frame that is sorted by timestamp without duplicate
timestamps returns it unchanged. -/
theorem mergeAll_single {l : List Row} (hs : l.Pairwise (fun a b => a.ts ≤ b.ts))
    (hnd : l.Pairwise (fun a b => a.ts ≠ b.ts)) : mergeAll [l] = l := by
  have hsorted : l.Pairwise rowLE := by
    refine (hs.and hnd).imp ?_
    intro a b hab
    exact Or.inl (lt_of_le_of_ne hab.1 hab.2)
  have hkey : l.Pairwise (fun a b => rkey a ≠ rkey b) := by
    refine hnd.imp ?_
    intro a b hab hk
    exact hab (congrArg Prod.fst hk)
  unfold mergeAll sortIndex
  simp only [List.flatten_cons, List.flatten_nil, List.append_nil]
  rw [List.Sorted.insertionSort_eq hsorted]
  exact keepLast_eq_self hkey

/-- Every kline of a successfully fetched batch reaches the flattened
per-symbol collection of the Binance download loop. -/
theorem binanceDownloadSymbol_key (client : KlineClient) (interval symbol : String) :
    ∀ (batches : List (Int × Int)) (bs be : Int) (ks : List Kline) (k : Kline),
      (bs, be) ∈ batches → client.getKlines symbol interval bs be = some ks → k ∈ ks →
      ∃ r ∈ (binanceDownloadSymbol client interval symbol batches).flatten,
        rkey r = (k.ts, symbol)
  | [], _, _, _, _, hb, _, _ => absurd hb (List.not_mem_nil _)
  | (cs, ce) :: tl, bs, be, ks, k, hb, hk, hmem => by
    rcases List.mem_cons.mp hb with hb | hb
    · injection hb with hcs hce
      subst hcs; subst hce
      have hne : ¬ ks.isEmpty = true := by
        cases ks with
        | nil => cases hmem
        | cons a as => simp
      simp only [binanceDownloadSymbol, hk]
      rw [if_neg hne]
      refine ⟨klineToRow symbol k, ?_, rfl⟩
      simp only [List.flatten_cons, List.mem_append]
      exact Or.inl (List.mem_map_of_mem _ hmem)
    · obtain ⟨r, hr, hrk⟩ :=
        binanceDownloadSymbol_key client interval symbol tl bs be ks k hb hk hmem
      cases hck : client.getKlines symbol interval cs ce with
      | none =>
        simp only [binanceDownloadSymbol, hck]
        exact ⟨r, hr, hrk⟩
      | some kl =>
        by_cases hkl : kl.isEmpty = true
        · simp only [binanceDownloadSymbol, hck]
          rw [if_pos hkl]
          exact ⟨r, hr, hrk⟩
        · simp only [binanceDownloadSymbol, hck]
          rw [if_neg hkl]
          refine ⟨r, ?_, hrk⟩
          simp only [List.flatten_cons, List.mem_append]
          exact Or.inr hr

/-- Every kline of a successfully fetched batch reaches the result of
BinanceDataDownloader.download. -/
theorem binanceDownload_key {client : KlineClient} {symbols : List String}
    {startD endD : Int} {interval symbol : String} {bs be : Int}
    {ks : List Kline} {k : Kline}
    (hsym : symbol ∈ symbols) (hb : (bs, be) ∈ createBatches startD endD interval)
    (hk : client.getKlines symbol interval bs be = some ks) (hmem : k ∈ ks) :
    ∃ r ∈ binanceDownload client symbols startD endD interval,
      rkey r = (k.ts, symbol) := by
  obtain ⟨r, hr, hrk⟩ := binanceDownloadSymbol_key client interval symbol
    (createBatches startD endD interval) bs be ks k hb hk hmem
  obtain ⟨r2, hr2, hrk2⟩ := exists_key_keepLast.mpr ⟨r, hr, hrk⟩
  refine ⟨r2, ?_, hrk2⟩
  unfold binanceDownload
  rw [List.mem_flatten]
  exact ⟨_, List.mem_map_of_mem _ hsym, hr2⟩

theorem processRanges_ok (dl : Downloader)
    (hdl : ∀ ss a b i, isOkE (dl.download ss a b i) = true)
    (symbol interval source : String) :
    ∀ (ranges : List (Int × Int)) (store : List DBRow),
      isOkE (processRanges dl symbol interval source ranges store).1 = true
  | [], _ => rfl
  | (gs, ge) :: rest, store => by
    have h := hdl [symbol] gs ge interval
    unfold processRanges
    cases hd : dl.download [symbol] gs ge interval with
    | error e => rw [hd] at h; simp [isOkE] at h
    | ok newData =>
      dsimp only
      by_cases hne : newData.isEmpty = true
      · rw [if_pos hne]
        have ih := processRanges_ok dl hdl symbol interval source rest store
        rcases hrec : processRanges dl symbol interval source rest store with ⟨fst, st2, n2⟩
        rw [hrec] at ih
        exact ih
      · rw [if_neg hne]
        have ih := processRanges_ok dl hdl symbol interval source rest
          (saveToCache newData source interval store)
        rcases hrec : processRanges dl symbol interval source rest
            (saveToCache newData source interval store) with ⟨fst, st2, n2⟩
        rw [hrec] at ih
        cases fst with
        | error e => simp [isOkE] at ih
        | ok dfs => rfl

theorem processSymbol_ok (dl : Downloader)
    (hdl : ∀ ss a b i, isOkE (dl.download ss a b i) = true)
    (useCache : Bool) (symbol : String) (startD endD : Int)
    (interval source : String) (store : List DBRow) :
    isOkE (processSymbol dl useCache symbol startD endD interval source store).1 = true := by
  unfold processSymbol
  by_cases hc : (useCache && !(getCachedData store symbol startD endD interval source).isEmpty) = true
  · rw [if_pos hc]
    have ih := processRanges_ok dl hdl symbol interval source
      (identifyMissingRanges (getCachedData store symbol startD endD interval source)
        startD endD interval) store
    rcases hrec : processRanges dl symbol interval source
        (identifyMissingRanges (getCachedData store symbol startD endD interval source)
          startD endD interval) store with ⟨fst, st2, n2⟩
    rw [hrec] at ih
    cases fst with
    | error e => simp [isOkE] at ih
    | ok dfs => rfl
  · rw [if_neg hc]
    have h := hdl [symbol] startD endD interval
    cases hd : dl.download [symbol] startD endD interval with
    | error e => rw [hd] at h; simp [isOkE] at h
    | ok newData =>
      dsimp only
      by_cases hne : newData.isEmpty = true
      · rw [if_pos hne]; rfl
      · rw [if_neg hne]; rfl

theorem processSymbols_ok (dl : Downloader)
    (hdl : ∀ ss a b i, isOkE (dl.download ss a b i) = true) (useCache : Bool) :
    ∀ (symbols : List String) (startD endD : Int) (interval source : String)
      (store : List DBRow),
      isOkE (processSymbols dl useCache symbols startD endD interval source store).1 = true
  | [], _, _, _, _, _ => rfl
  | symbol :: rest, startD, endD, interval, source, store => by
    unfold processSymbols
    have h1 := processSymbol_ok dl hdl useCache symbol startD endD interval source store
    rcases hs : processSymbol dl useCache symbol startD endD interval source store with
      ⟨fst, st2, n2⟩
    rw [hs] at h1
    cases fst with
    | error e => simp [isOkE] at h1
    | ok dfs =>
      dsimp only
      have ih := processSymbols_ok dl hdl useCache rest startD endD interval source st2
      rcases hrec : processSymbols dl useCache rest startD endD interval source st2 with
        ⟨fst2, st3, n3⟩
      rw [hrec] at ih
      cases fst2 with
      | error e => simp [isOkE] at ih
      | ok dfs2 => rfl

/-- With the Binance backend registered, get_data never propagates an
exception: the per-batch try/except inside download absorbs all failures. -/
theorem getData_binance_ok (client : KlineClient) (uc : Bool) (store : List DBRow)
    (symbols : List String) (startD endD : Int) (interval source : String)
    (downloaders : List (String × Downloader))
    (hdl : downloaders.lookup source = some (binanceDL client)) :
    isOkE (getData downloaders uc store symbols startD endD interval source).1 = true := by
  unfold getData
  rw [hdl]
  dsimp only
  have hok : ∀ ss a b i, isOkE ((binanceDL client).download ss a b i) = true :=
    fun _ _ _ _ => rfl
  have h1 := processSymbols_ok (binanceDL client) hok uc symbols startD endD interval source store
  rcases hs : processSymbols (binanceDL client) uc symbols startD endD interval source store with
    ⟨fst, st2, n2⟩
  rw [hs] at h1
  cases fst with
  | error e => simp [isOkE] at h1
  | ok allData =>
    dsimp only
    by_cases hne : allData.isEmpty = true
    · rw [if_pos hne]; rfl
    · rw [if_neg hne]; rfl

/-- C3: for every window with start before end and every interval label,
_create_batches returns a nonempty batch list in ascending chronological
order whose first batch starts at the window start, whose last batch ends at
the window end, where each batch end equals the next batch start, and where
each batch spans at most MAX_CANDLES_PER_REQUEST - 1 interval steps; in
particular a 250 hour window at a one hour interval yields exactly 3
sub-windows, each at most 99 hours wide. -/
theorem batching_planner_c3 (s e : Int) (i : String) (hse : s < e) :
    createBatches s e i ≠ [] ∧
    (createBatches s e i).head?.map Prod.fst = some s ∧
    (createBatches s e i).getLast?.map Prod.snd = some e ∧
    List.Chain' (fun a b => a.2 = b.1) (createBatches s e i) ∧
    (∀ b ∈ createBatches s e i, b.1 < b.2 ∧
      b.2 - b.1 ≤ getIntervalDelta i * (MAX_CANDLES_PER_REQUEST - 1)) ∧
    (createBatches 0 900000 ("1h")).length = 3 ∧
    (∀ b ∈ createBatches 0 900000 ("1h"), b.2 - b.1 ≤ 99 * 3600) := by
  have hpos : 0 < getIntervalDelta i * (MAX_CANDLES_PER_REQUEST - 1) :=
    mul_pos (getIntervalDelta_pos i) (by norm_num [MAX_CANDLES_PER_REQUEST])
  obtain ⟨h1, h2, h3, h4⟩ :=
    createBatchesAux_spec (getIntervalDelta i * (MAX_CANDLES_PER_REQUEST - 1)) e hpos s hse
  refine ⟨?_, h1, h2, h3, h4, ?_, ?_⟩
  · intro hnil
    unfold createBatches at hnil
    rw [hnil] at h1
    exact Option.noConfusion h1
  · rw [createBatches_1h_250h]
    rfl
  · rw [createBatches_1h_250h]
    decide

theorem batching_planner_c3_witness :
    ((0 : Int) < 900000) ∧
    (createBatches 0 900000 ("1h") ≠ [] ∧
      (createBatches 0 900000 ("1h")).head?.map Prod.fst = some 0 ∧
      (createBatches 0 900000 ("1h")).getLast?.map Prod.snd = some 900000 ∧
      List.Chain' (fun a b => a.2 = b.1) (createBatches 0 900000 ("1h")) ∧
      (∀ b ∈ createBatches 0 900000 ("1h"), b.1 < b.2 ∧
        b.2 - b.1 ≤ getIntervalDelta ("1h") * (MAX_CANDLES_PER_REQUEST - 1)) ∧
      (createBatches 0 900000 ("1h")).length = 3 ∧
      (∀ b ∈ createBatches 0 900000 ("1h"), b.2 - b.1 ≤ 99 * 3600)) :=
  ⟨by norm_num, batching_planner_c3 0 900000 ("1h") (by norm_num)⟩

/-- C4: _identify_missing_ranges returns the single gap (start, end) on an
empty cache; on a nonempty cache it returns a leading gap starting at the
requested start exactly when start is before the earliest cached timestamp,
then a trailing gap ending at the requested end exactly when end is after
the latest cached timestamp, leading gap listed first; in particular a cache
covering timestamps 2 to 4 with request 1 to 5 yields gaps (1, 2), (4, 5). -/
theorem gap_detector_c4 :
    (∀ (s e : Int) (i : String), identifyMissingRanges [] s e i = [(s, e)]) ∧
    (∀ (r : Row) (rest : List Row) (s e : Int) (i : String),
      (s < tsMin r rest → tsMax r rest < e →
        identifyMissingRanges (r :: rest) s e i = [(s, tsMin r rest), (tsMax r rest, e)]) ∧
      (s < tsMin r rest → ¬ tsMax r rest < e →
        identifyMissingRanges (r :: rest) s e i = [(s, tsMin r rest)]) ∧
      (¬ s < tsMin r rest → tsMax r rest < e →
        identifyMissingRanges (r :: rest) s e i = [(tsMax r rest, e)]) ∧
      (¬ s < tsMin r rest → ¬ tsMax r rest < e →
        identifyMissingRanges (r :: rest) s e i = [])) ∧
    identifyMissingRanges [⟨"A", 2, 0, 0, 0, 0, 0⟩, ⟨"A", 4, 0, 0, 0, 0, 0⟩] 1 5 ("1h")
      = [(1, 2), (4, 5)] := by
  refine ⟨fun s e i => rfl, ?_, by decide⟩
  intro r rest s e i
  refine ⟨?_, ?_, ?_, ?_⟩ <;> intro hlead htrail <;>
    show (if s < tsMin r rest then [(s, tsMin r rest)] else []) ++
        (if tsMax r rest < e then [(tsMax r rest, e)] else []) = _
  · rw [if_pos hlead, if_pos htrail]; rfl
  · rw [if_pos hlead, if_neg htrail]; rfl
  · rw [if_neg hlead, if_pos htrail]; rfl
  · rw [if_neg hlead, if_neg htrail]; rfl

theorem gap_detector_c4_witness :
    ((1 : Int) < tsMin ⟨"A", 2, 0, 0, 0, 0, 0⟩ [⟨"A", 4, 0, 0, 0, 0, 0⟩]) ∧
    (tsMax ⟨"A", 2, 0, 0, 0, 0, 0⟩ [⟨"A", 4, 0, 0, 0, 0, 0⟩] < 5) ∧
    identifyMissingRanges [⟨"A", 2, 0, 0, 0, 0, 0⟩, ⟨"A", 4, 0, 0, 0, 0, 0⟩] 1 5 ("1h")
      = [(1, tsMin ⟨"A", 2, 0, 0, 0, 0, 0⟩ [⟨"A", 4, 0, 0, 0, 0, 0⟩]),
         (tsMax ⟨"A", 2, 0, 0, 0, 0, 0⟩ [⟨"A", 4, 0, 0, 0, 0, 0⟩], 5)] :=
  ⟨by decide, by decide,
   (gap_detector_c4.2.1 ⟨"A", 2, 0, 0, 0, 0, 0⟩ [⟨"A", 4, 0, 0, 0, 0, 0⟩] 1 5 ("1h")).1
     (by decide) (by decide)⟩

/-- C7: when the cached extremes cover the requested window, the gap
detector reports zero gaps, no matter which interior timestamps exist. -/
theorem gap_detector_covered_c7 (r : Row) (rest : List Row) (s e : Int) (i : String)
    (hmin : tsMin r rest ≤ s) (hmax : e ≤ tsMax r rest) :
    identifyMissingRanges (r :: rest) s e i = [] :=
  identifyMissingRanges_covered hmin hmax

theorem gap_detector_covered_c7_witness :
    (tsMin ⟨"A", 0, 0, 0, 0, 0, 0⟩ [⟨"A", 10, 0, 0, 0, 0, 0⟩] ≤ 2) ∧
    ((8 : Int) ≤ tsMax ⟨"A", 0, 0, 0, 0, 0, 0⟩ [⟨"A", 10, 0, 0, 0, 0, 0⟩]) ∧
    identifyMissingRanges [⟨"A", 0, 0, 0, 0, 0, 0⟩, ⟨"A", 10, 0, 0, 0, 0, 0⟩] 2 8 ("1h") = [] :=
  ⟨by decide, by decide,
   gap_detector_covered_c7 ⟨"A", 0, 0, 0, 0, 0, 0⟩ [⟨"A", 10, 0, 0, 0, 0, 0⟩] 2 8 ("1h")
     (by decide) (by decide)⟩

/-- C9: requesting a source with no registered downloader makes get_data
raise immediately: the returned state is an error, the store is unchanged
and zero backend download calls were issued. -/
theorem unknown_source_c9 (dls : List (String × Downloader)) (uc : Bool)
    (store : List DBRow) (symbols : List String) (s e : Int) (i src : String)
    (h : dls.lookup src = none) :
    getData dls uc store symbols s e i src =
      (Except.error (("No downloader registered for source: ") ++ src), store, 0) := by
  unfold getData
  rw [h]

theorem unknown_source_c9_witness :
    (([] : List (String × Downloader)).lookup ("binance") = none) ∧
    getData [] true [] [("A" : String)] 0 5 ("1h") ("binance") =
      (Except.error (("No downloader registered for source: ") ++ ("binance")), [], 0) :=
  ⟨rfl, unknown_source_c9 [] true [] [("A" : String)] 0 5 ("1h") ("binance") rfl⟩

/-- C10: get_data on an empty symbol list with a registered source returns
an empty frame, issues no backend call, writes nothing to the store and
raises no exception. -/
theorem empty_symbols_c10 (dls : List (String × Downloader)) (dl : Downloader)
    (uc : Bool) (store : List DBRow) (s e : Int) (i src : String)
    (h : dls.lookup src = some dl) :
    getData dls uc store [] s e i src = (Except.ok [], store, 0) := by
  unfold getData
  rw [h]
  rfl

/-- A minimal backend used by witnesses: one row per symbol at the
start of the requested range. -/
def demoDL : Downloader :=
  ⟨fun symbols s _ _ =>
    Except.ok (symbols.map (fun sy => (⟨sy, s, 1, 1, 1, 1, 1⟩ : Row)))⟩

theorem empty_symbols_c10_witness :
    ([(("src" : String), demoDL)].lookup ("src") = some demoDL) ∧
    getData [(("src" : String), demoDL)] true [] [] 0 5 ("1h") ("src") =
      (Except.ok [], [], 0) :=
  ⟨rfl, empty_symbols_c10 [(("src" : String), demoDL)] demoDL true [] 0 5 ("1h") ("src") rfl⟩

/-- C8: every frame returned by get_data has no repeated (symbol, timestamp)
key and, for each symbol, timestamps in non-decreasing order over adjacent
rows. -/
theorem result_invariants_c8 (dls : List (String × Downloader)) (uc : Bool)
    (store : List DBRow) (symbols : List String) (s e : Int) (i src : String)
    (res : List Row) (st : List DBRow) (n : Nat)
    (h : getData dls uc store symbols s e i src = (Except.ok res, st, n)) :
    res.Pairwise (fun a b => ¬ (a.symbol = b.symbol ∧ a.ts = b.ts)) ∧
    res.Pairwise (fun a b => a.symbol = b.symbol → a.ts ≤ b.ts) := by
  unfold getData at h
  cases hl : dls.lookup src with
  | none =>
    rw [hl] at h
    simp at h
  | some dl =>
    rw [hl] at h
    dsimp only at h
    rcases hps : processSymbols dl uc symbols s e i src store with ⟨fst, st2, n2⟩
    rw [hps] at h
    cases fst with
    | error msg => simp at h
    | ok allData =>
      dsimp only at h
      have hres : res = [] ∨ res = mergeAll allData := by
        by_cases hne : allData.isEmpty = true
        · rw [if_pos hne] at h
          simp only [Prod.mk.injEq] at h
          exact Or.inl (Except.ok.inj h.1).symm
        · rw [if_neg hne] at h
          simp only [Prod.mk.injEq] at h
          exact Or.inr (Except.ok.inj h.1).symm
      rcases hres with hres | hres
      · subst hres
        exact ⟨List.Pairwise.nil, List.Pairwise.nil⟩
      · subst hres
        constructor
        · refine (keepLast_pairwise_key _).imp ?_
          intro a b hk hab
          exact hk (by simp only [rkey, hab.1, hab.2, Prod.mk.injEq, and_self])
        · have hsorted : (sortIndex allData.flatten).Pairwise rowLE :=
            List.sorted_insertionSort rowLE _
          have hsub : (mergeAll allData).Pairwise rowLE :=
            List.Pairwise.sublist (keepLast_sublist _) hsorted
          refine hsub.imp ?_
          intro a b hab _
          rcases hab with hab | hab
          · exact le_of_lt hab
          · exact le_of_eq hab.1

theorem result_invariants_c8_witness :
    (getData [(("src" : String), demoDL)] true [] [("A" : String)] 0 5 ("1h") ("src") =
      (Except.ok [⟨"A", 0, 1, 1, 1, 1, 1⟩], [⟨"A", 0, 1, 1, 1, 1, 1, "src", "1h"⟩], 1)) ∧
    ([(⟨"A", 0, 1, 1, 1, 1, 1⟩ : Row)].Pairwise
        (fun a b => ¬ (a.symbol = b.symbol ∧ a.ts = b.ts)) ∧
      [(⟨"A", 0, 1, 1, 1, 1, 1⟩ : Row)].Pairwise
        (fun a b => a.symbol = b.symbol → a.ts ≤ b.ts)) :=
  ⟨rfl, result_invariants_c8 [(("src" : String), demoDL)] true [] [("A" : String)] 0 5
    ("1h") ("src") [⟨"A", 0, 1, 1, 1, 1, 1⟩] [⟨"A", 0, 1, 1, 1, 1, 1, "src", "1h"⟩] 1 rfl⟩

/-- A backend returning one row at each end of the requested range, with
OHLCV payload 2, used to exhibit the boundary conflict of C1. -/
def cexDL : Downloader :=
  ⟨fun symbols s e _ =>
    Except.ok ((symbols.map (fun sy => (⟨sy, s, 2, 2, 2, 2, 2⟩ : Row))) ++
      (symbols.map (fun sy => (⟨sy, e, 2, 2, 2, 2, 2⟩ : Row))))⟩

/-- C1 counterexample: the cache holds the key (10, A) with OHLCV payload 1;
the gap download re-fetches that key with payload 2; the merged result keeps
the cached payload 1, not the newly downloaded payload 2, because the cached
frame is concatenated after the downloads and the dedup keeps the last
occurrence. -/
theorem merge_prefers_cache_c1_cex :
    (cexDL.download [("A" : String)] 5 10 ("1h") =
      Except.ok [⟨"A", 5, 2, 2, 2, 2, 2⟩, ⟨"A", 10, 2, 2, 2, 2, 2⟩]) ∧
    ((getData [(("src" : String), cexDL)] true [⟨"A", 10, 1, 1, 1, 1, 1, "src", "1h"⟩]
        [("A" : String)] 5 10 ("1h") ("src")).1
      = Except.ok [⟨"A", 5, 2, 2, 2, 2, 2⟩, ⟨"A", 10, 1, 1, 1, 1, 1⟩]) ∧
    ((1 : Int) ≠ 2) :=
  ⟨rfl, rfl, by decide⟩

theorem filter_key_of_nodup {cached : List Row} {c : Row}
    (hnodup : cached.Pairwise (fun a b => rkey a ≠ rkey b)) (hc : c ∈ cached) :
    cached.filter (fun r => decide (rkey r = rkey c)) = [c] := by
  induction cached with
  | nil => cases hc
  | cons x xs ih =>
    rcases List.mem_cons.mp hc with hx | hx
    · subst hx
      have hxs : xs.filter (fun r => decide (rkey r = rkey c)) = [] := by
        rw [List.filter_eq_nil_iff]
        intro y hy hyk
        exact ((List.pairwise_cons.mp hnodup).1 y hy) (of_decide_eq_true hyk).symm
      have hcons : (c :: xs).filter (fun r => decide (rkey r = rkey c)) =
          c :: xs.filter (fun r => decide (rkey r = rkey c)) := by
        simp [List.filter_cons]
      rw [hcons, hxs]
    · have hxc : rkey x ≠ rkey c := (List.pairwise_cons.mp hnodup).1 c hx
      have hcons : (x :: xs).filter (fun r => decide (rkey r = rkey c)) =
          xs.filter (fun r => decide (rkey r = rkey c)) := by
        simp [List.filter_cons, hxc]
      rw [hcons]
      exact ih (List.pairwise_cons.mp hnodup).2 hx

/-- C1 amended: when cached rows and newly downloaded rows exist for the
same (timestamp, symbol) key, the merged per-call result contains exactly
one row for that key, and its OHLCV values are those of the previously
cached row: the cached frame is appended after the gap downloads and the
dedup keeps the last occurrence of each key after a stable sort. The frames
of other symbols (pre and post) never hold the conflicting key. -/
theorem merge_prefers_cache_c1 (pre newBatches post : List (List Row))
    (cached : List Row) (c : Row)
    (hnodup : cached.Pairwise (fun a b => rkey a ≠ rkey b))
    (hc : c ∈ cached)
    (hnew : ∃ b ∈ newBatches, ∃ r ∈ b, rkey r = rkey c)
    (hpre : ∀ b ∈ pre, ∀ r ∈ b, rkey r ≠ rkey c)
    (hpost : ∀ b ∈ post, ∀ r ∈ b, rkey r ≠ rkey c) :
    (mergeAll (pre ++ (newBatches ++ [cached]) ++ post)).filter
      (fun r => decide (rkey r = rkey c)) = [c] := by
  unfold mergeAll
  rw [filter_key_keepLast (rkey c)]
  rw [show sortIndex ((pre ++ (newBatches ++ [cached]) ++ post).flatten) =
      List.insertionSort rowLE ((pre ++ (newBatches ++ [cached]) ++ post).flatten) from rfl]
  rw [filter_insertionSort_key]
  · have hflat : (pre ++ (newBatches ++ [cached]) ++ post).flatten =
        pre.flatten ++ (newBatches.flatten ++ cached) ++ post.flatten := by
      simp [List.flatten_append]
    rw [hflat]
    have hfpre : pre.flatten.filter (fun r => decide (rkey r = rkey c)) = [] := by
      rw [List.filter_eq_nil_iff]
      intro y hy hyk
      obtain ⟨b, hb, hyb⟩ := List.mem_flatten.mp hy
      exact hpre b hb y hyb (of_decide_eq_true hyk)
    have hfpost : post.flatten.filter (fun r => decide (rkey r = rkey c)) = [] := by
      rw [List.filter_eq_nil_iff]
      intro y hy hyk
      obtain ⟨b, hb, hyb⟩ := List.mem_flatten.mp hy
      exact hpost b hb y hyb (of_decide_eq_true hyk)
    rw [List.filter_append, List.filter_append, List.filter_append,
      hfpre, hfpost, filter_key_of_nodup hnodup hc]
    rw [List.nil_append, List.append_nil, List.getLast?_concat]
    rfl
  · intro a b ha hb
    have ha' := of_decide_eq_true ha
    have hb' := of_decide_eq_true hb
    have hts : a.ts = b.ts := by
      have := congrArg Prod.fst (ha'.trans hb'.symm)
      simpa [rkey] using this
    have hsy : a.symbol = b.symbol := by
      have := congrArg Prod.snd (ha'.trans hb'.symm)
      simpa [rkey] using this
    exact Or.inr ⟨hts, Or.inr hsy⟩

theorem merge_prefers_cache_c1_witness :
    ([(⟨"A", 10, 1, 1, 1, 1, 1⟩ : Row)].Pairwise (fun a b => rkey a ≠ rkey b)) ∧
    ((⟨"A", 10, 1, 1, 1, 1, 1⟩ : Row) ∈ [(⟨"A", 10, 1, 1, 1, 1, 1⟩ : Row)]) ∧
    (∃ b ∈ [[(⟨"A", 5, 2, 2, 2, 2, 2⟩ : Row), ⟨"A", 10, 2, 2, 2, 2, 2⟩]],
      ∃ r ∈ b, rkey r = rkey (⟨"A", 10, 1, 1, 1, 1, 1⟩ : Row)) ∧
    (mergeAll ([] ++ ([[(⟨"A", 5, 2, 2, 2, 2, 2⟩ : Row), ⟨"A", 10, 2, 2, 2, 2, 2⟩]] ++
        [[(⟨"A", 10, 1, 1, 1, 1, 1⟩ : Row)]]) ++ [])).filter
      (fun r => decide (rkey r = rkey (⟨"A", 10, 1, 1, 1, 1, 1⟩ : Row)))
      = [(⟨"A", 10, 1, 1, 1, 1, 1⟩ : Row)] :=
  ⟨by decide, by decide, by decide,
   merge_prefers_cache_c1 [] [[(⟨"A", 5, 2, 2, 2, 2, 2⟩ : Row), ⟨"A", 10, 2, 2, 2, 2, 2⟩]] []
     [(⟨"A", 10, 1, 1, 1, 1, 1⟩ : Row)] (⟨"A", 10, 1, 1, 1, 1, 1⟩ : Row)
     (by decide) (by decide) (by decide)
     (fun b hb => absurd hb (List.not_mem_nil b))
     (fun b hb => absurd hb (List.not_mem_nil b))⟩

/-- A backend whose download method itself raises when asked for symbol B,
and returns one row at the range start otherwise. -/
def failDL : Downloader :=
  ⟨fun symbols s _ _ =>
    if symbols.contains ("B") then Except.error ("boom")
    else Except.ok (symbols.map (fun sy => (⟨sy, s, 1, 1, 1, 1, 1⟩ : Row)))⟩

/-- C2 counterexample: get_data has no try/except around the backend call;
when download raises for the second symbol, the whole request fails with
that exception, even though the first symbol had already been fetched and
cached, so the returned result contains none of the successfully fetched
rows. -/
theorem error_propagates_c2_cex :
    getData [(("src" : String), failDL)] true [] [("A" : String), ("B" : String)] 0 5
        ("1h") ("src")
      = (Except.error ("boom"), [⟨"A", 0, 1, 1, 1, 1, 1, "src", "1h"⟩], 2) :=
  rfl

theorem createBatches_1h_2 :
    createBatches 0 712800 ("1h") = [(0, 356400), (356400, 712800)] := by
  have hd : getIntervalDelta ("1h") * (MAX_CANDLES_PER_REQUEST - 1) = 356400 := rfl
  unfold createBatches
  rw [hd]
  rw [createBatchesAux]
  norm_num [min_def]
  rw [createBatchesAux]
  norm_num [min_def]
  rw [createBatchesAux]
  norm_num

/-- C2 amended: the try/except sits inside BinanceDataDownloader.download at
the level of a single batch API call, not in get_data. A failing kline call
for one sub-window is caught there and skipped, every kline of every
successful batch of every requested symbol still reaches the download
result, and get_data with the Binance backend registered never surfaces an
exception. An exception escaping download itself, however, propagates out
of get_data (see the counterexample). -/
theorem batch_failure_resilience_c2 (client : KlineClient) (uc : Bool)
    (store : List DBRow) (symbols : List String) (s e : Int) (ivl : String)
    (downloaders : List (String × Downloader)) (src : String)
    (hdl : downloaders.lookup src = some (binanceDL client))
    (symbol : String) (bs be : Int) (ks : List Kline) (k : Kline)
    (hsym : symbol ∈ symbols) (hb : (bs, be) ∈ createBatches s e ivl)
    (hk : client.getKlines symbol ivl bs be = some ks) (hmem : k ∈ ks) :
    (∃ r ∈ binanceDownload client symbols s e ivl, rkey r = (k.ts, symbol)) ∧
    isOkE (getData downloaders uc store symbols s e ivl src).1 = true :=
  ⟨binanceDownload_key hsym hb hk hmem,
   getData_binance_ok client uc store symbols s e ivl src downloaders hdl⟩

/-- A Binance client whose first batch call (starting at 0) raises and whose
other calls return a single kline at the batch start. -/
def cl2 : KlineClient :=
  ⟨fun _ _ bs _ => if bs == 0 then none else some [⟨bs, 2, 2, 2, 2, 2⟩]⟩

theorem batch_failure_resilience_c2_witness :
    ([(("binance" : String), binanceDL cl2)].lookup ("binance") = some (binanceDL cl2)) ∧
    (("A" : String) ∈ [("A" : String)]) ∧
    ((356400, 712800) ∈ createBatches 0 712800 ("1h")) ∧
    (cl2.getKlines ("A") ("1h") 356400 712800 = some [⟨356400, 2, 2, 2, 2, 2⟩]) ∧
    ((⟨356400, 2, 2, 2, 2, 2⟩ : Kline) ∈ [(⟨356400, 2, 2, 2, 2, 2⟩ : Kline)]) ∧
    ((∃ r ∈ binanceDownload cl2 [("A" : String)] 0 712800 ("1h"),
        rkey r = ((356400 : Int), ("A" : String))) ∧
      isOkE (getData [(("binance" : String), binanceDL cl2)] true []
        [("A" : String)] 0 712800 ("1h") ("binance")).1 = true) :=
  ⟨rfl, by decide, by rw [createBatches_1h_2]; decide, rfl, by decide,
   batch_failure_resilience_c2 cl2 true [] [("A" : String)] 0 712800 ("1h")
     [(("binance" : String), binanceDL cl2)] ("binance") rfl ("A") 356400 712800
     [⟨356400, 2, 2, 2, 2, 2⟩] ⟨356400, 2, 2, 2, 2, 2⟩ (by decide)
     (by rw [createBatches_1h_2]; decide) rfl (by decide)⟩

/-- A backend that has data only from timestamp 9 onward: any requested
range containing 9 yields the single candle at 9. -/
def lateDL : Downloader :=
  ⟨fun symbols s e _ =>
    Except.ok (if s ≤ 9 ∧ 9 ≤ e then
      symbols.map (fun sy => (⟨sy, 9, 1, 1, 1, 1, 1⟩ : Row)) else [])⟩

/-- C5 counterexample: request window 4 to 9. Before the first call, the
store holds only the key (A, 3). The first call downloads the full range
and caches the candle at 9, so afterwards the earliest cached timestamp 3
is at most the requested start 4 and the latest cached timestamp 9 is at
least the requested end 9. The second identical call nevertheless issues
one backend download, because gap detection uses the extremes of the
window-filtered query, whose earliest row is 9, not the store-wide
extremes. -/
theorem idempotence_c5_cex :
    (getData [(("src" : String), lateDL)] true [⟨"A", 3, 1, 1, 1, 1, 1, "src", "1h"⟩]
        [("A" : String)] 4 9 ("1h") ("src")
      = (Except.ok [⟨"A", 9, 1, 1, 1, 1, 1⟩],
         [⟨"A", 3, 1, 1, 1, 1, 1, "src", "1h"⟩, ⟨"A", 9, 1, 1, 1, 1, 1, "src", "1h"⟩], 1)) ∧
    ((getData [(("src" : String), lateDL)] true
        [⟨"A", 3, 1, 1, 1, 1, 1, "src", "1h"⟩, ⟨"A", 9, 1, 1, 1, 1, 1, "src", "1h"⟩]
        [("A" : String)] 4 9 ("1h") ("src")).2.2 = 1) :=
  ⟨rfl, rfl⟩

/-- C5 amended: when the cached query result for the key and window is
nonempty and its extremes cover the window (earliest at most the start,
latest at least the end), a get_data call performs zero backend downloads,
leaves the store unchanged and returns exactly the cached rows; hence any
further identical call returns the same rows. -/
theorem idempotence_c5 (dls : List (String × Downloader)) (dl : Downloader)
    (store : List DBRow) (symbol : String) (s e : Int) (ivl src : String)
    (c : Row) (cs : List Row)
    (hdl : dls.lookup src = some dl)
    (hwf : StoreWF store)
    (hq : getCachedData store symbol s e ivl src = c :: cs)
    (hmin : tsMin c cs ≤ s) (hmax : e ≤ tsMax c cs) :
    getData dls true store [symbol] s e ivl src = (Except.ok (c :: cs), store, 0) := by
  have hs : (c :: cs).Pairwise (fun a b => a.ts ≤ b.ts) := by
    rw [← hq]; exact getCachedData_sorted store symbol s e ivl src
  have hnd : (c :: cs).Pairwise (fun a b => a.ts ≠ b.ts) := by
    rw [← hq]; exact getCachedData_ts_nodup hwf symbol s e ivl src
  unfold getData
  rw [hdl]
  dsimp only
  unfold processSymbols processSymbol
  rw [hq]
  dsimp only
  rw [if_pos (show (true && !(c :: cs).isEmpty) = true by simp)]
  rw [identifyMissingRanges_covered hmin hmax]
  unfold processRanges
  dsimp only
  unfold processSymbols
  dsimp only
  simp only [List.nil_append, List.append_nil]
  rw [if_neg (by simp)]
  rw [mergeAll_single hs hnd]

/-- The WF store used by witnesses: rows at timestamps 4 and 9 of one key
space. -/
def demoStore : List DBRow :=
  [⟨"A", 4, 1, 1, 1, 1, 1, "src", "1h"⟩, ⟨"A", 9, 2, 2, 2, 2, 2, "src", "1h"⟩]

theorem idempotence_c5_witness :
    ([(("src" : String), demoDL)].lookup ("src") = some demoDL) ∧
    StoreWF demoStore ∧
    (getCachedData demoStore ("A") 4 9 ("1h") ("src")
      = [⟨"A", 4, 1, 1, 1, 1, 1⟩, ⟨"A", 9, 2, 2, 2, 2, 2⟩]) ∧
    (tsMin ⟨"A", 4, 1, 1, 1, 1, 1⟩ [⟨"A", 9, 2, 2, 2, 2, 2⟩] ≤ 4) ∧
    ((9 : Int) ≤ tsMax ⟨"A", 4, 1, 1, 1, 1, 1⟩ [⟨"A", 9, 2, 2, 2, 2, 2⟩]) ∧
    getData [(("src" : String), demoDL)] true demoStore [("A" : String)] 4 9 ("1h") ("src")
      = (Except.ok [⟨"A", 4, 1, 1, 1, 1, 1⟩, ⟨"A", 9, 2, 2, 2, 2, 2⟩], demoStore, 0) :=
  ⟨rfl, by constructor <;> simp [sameKeyD, demoStore], rfl, by decide, by decide,
   idempotence_c5 [(("src" : String), demoDL)] demoDL demoStore ("A") 4 9 ("1h") ("src")
     ⟨"A", 4, 1, 1, 1, 1, 1⟩ [⟨"A", 9, 2, 2, 2, 2, 2⟩] rfl
     (by constructor <;> simp [sameKeyD, demoStore]) rfl (by decide) (by decide)⟩

/-- C6: on a store whose primary key is structurally unique, the cache query
returns exactly the records of the requested (symbol, interval, source) key
space whose timestamp lies in the closed window, in ascending timestamp
order, without duplicate timestamps, and the empty sequence when no such
record exists. -/
theorem store_query_c6 (store : List DBRow) (symbol : String) (s e : Int)
    (ivl src : String) (hwf : StoreWF store) :
    (∀ row : Row, row ∈ getCachedData store symbol s e ivl src ↔
      ∃ d ∈ store, d.symbol = symbol ∧ s ≤ d.ts ∧ d.ts ≤ e ∧
        d.interval = ivl ∧ d.source = src ∧ toRow d = row) ∧
    (getCachedData store symbol s e ivl src).Pairwise (fun a b => a.ts ≤ b.ts) ∧
    (getCachedData store symbol s e ivl src).Pairwise (fun a b => a.ts ≠ b.ts) ∧
    ((¬ ∃ d ∈ store, d.symbol = symbol ∧ s ≤ d.ts ∧ d.ts ≤ e ∧
        d.interval = ivl ∧ d.source = src) →
      getCachedData store symbol s e ivl src = []) := by
  refine ⟨fun row => getCachedData_mem_iff, getCachedData_sorted store symbol s e ivl src,
    getCachedData_ts_nodup hwf symbol s e ivl src, ?_⟩
  intro hnone
  rw [List.eq_nil_iff_forall_not_mem]
  intro row hrow
  obtain ⟨d, hd, h1, h2, h3, h4, h5, _⟩ := getCachedData_mem_iff.mp hrow
  exact hnone ⟨d, hd, h1, h2, h3, h4, h5⟩

theorem store_query_c6_witness :
    StoreWF demoStore ∧
    ((∀ row : Row, row ∈ getCachedData demoStore ("A") 4 9 ("1h") ("src") ↔
        ∃ d ∈ demoStore, d.symbol = ("A" : String) ∧ 4 ≤ d.ts ∧ d.ts ≤ 9 ∧
          d.interval = ("1h" : String) ∧ d.source = ("src" : String) ∧ toRow d = row) ∧
      (getCachedData demoStore ("A") 4 9 ("1h") ("src")).Pairwise (fun a b => a.ts ≤ b.ts) ∧
      (getCachedData demoStore ("A") 4 9 ("1h") ("src")).Pairwise (fun a b => a.ts ≠ b.ts) ∧
      ((¬ ∃ d ∈ demoStore, d.symbol = ("A" : String) ∧ 4 ≤ d.ts ∧ d.ts ≤ 9 ∧
          d.interval = ("1h" : String) ∧ d.source = ("src" : String)) →
        getCachedData demoStore ("A") 4 9 ("1h") ("src") = [])) :=
  ⟨by constructor <;> simp [sameKeyD, demoStore],
   store_query_c6 demoStore ("A") 4 9 ("1h") ("src")
     (by constructor <;> simp [sameKeyD, demoStore])⟩

end TwoCC
